import Mathlib

/-!
# Verification of the cppdep dependency-graph engine (src/cppdep.py)

Shallow embedding of the core of `cppdep.py`:

* `Project.transitive_reduction` (lines 237-283): depth-first traversal with
  temporary/permanent marks, per-node cached reachable sets, and an in-place
  pairwise reduction of each node's `includes` list;
* `Project.component_partitioning` (lines 285-333): pairing of source/header
  and header/header nodes that share a base name and differ in extension;
* `Project.preprocess_header_files` / `Project.preprocess_source_files`
  (lines 165-235): expansion of the include graph from the output of the
  external extraction oracle (`g++ -MM -MG`), with a lookup table that maps
  include tokens to node ids and creates missing (unresolved) nodes.

Nodes are modelled by natural-number ids: the id of a node is its position in
the concatenation `header_files ++ source_files` of the Python lists (the two
visiting loops at lines 279-283 therefore become one loop over `0..n-1`).
Python `set` objects are modelled as `List Nat` with membership as the only
observable; Python object identity (`!=` on nodes at line 187) becomes
equality of ids.
-/

namespace Cppdep

/-- The reduction step of `Project.transitive_reduction.visit`
(`cppdep.py` lines 265-270):

```
nodes = node.includes.copy()
for child1 in nodes:
    for child2 in nodes:
        if child1 in reachable_nodes[child2]:
            node.includes.remove(child1)
            break
```

The outer loop runs over the copy `nodes` while `node.includes.remove` drops
the first occurrence from the live list (modelled by `List.erase`); the inner
loop with `break` is the test `nodes.any ...`.  Note that `child2` ranges over
the full copy, so a child is also tested against its own cached reachable set
and against the reachable sets of already-removed children. -/
def reduceStep (reach : Nat → List Nat) (nodes : List Nat) : List Nat :=
  nodes.foldl
    (fun acc c1 => if nodes.any (fun c2 => (reach c2).contains c1) then acc.erase c1 else acc)
    nodes

/-- Mutable state of `Project.transitive_reduction` (lines 237-250):
the `includes` lists of all nodes (`adj`), the `permanent_mark`,
`temp_mark` and `reachable_nodes` tables. -/
structure RState where
  adj : List (List Nat)
  perm : List Bool
  temp : List Bool
  reach : List (List Nat)
deriving Repr, DecidableEq

def RState.getAdj (s : RState) (n : Nat) : List Nat := s.adj.getD n []

def RState.getPerm (s : RState) (n : Nat) : Bool := s.perm.getD n false

def RState.getTemp (s : RState) (n : Nat) : Bool := s.temp.getD n false

def RState.getReach (s : RState) (n : Nat) : List Nat := s.reach.getD n []

def RState.setTemp (s : RState) (n : Nat) (b : Bool) : RState :=
  { s with temp := s.temp.set n b }

def RState.setPerm (s : RState) (n : Nat) (b : Bool) : RState :=
  { s with perm := s.perm.set n b }

def RState.setAdjAt (s : RState) (n : Nat) (l : List Nat) : RState :=
  { s with adj := s.adj.set n l }

def RState.setReachAt (s : RState) (n : Nat) (l : List Nat) : RState :=
  { s with reach := s.reach.set n l }

/-- The recursive `visit` of `Project.transitive_reduction` (lines 252-277),
together with the loops that drive it.  The Python function is recursive
through the `for child in node.includes: visit(child)` loop; the embedding
makes the recursion explicit with a task argument: `Sum.inl n` is a call
`visit(n)`, and `Sum.inr cs` is the remainder of a `for`-loop over the list
`cs` of nodes still to visit.  `fuel` bounds the recursion depth; fuel
exhaustion returns `none` (the theorem `transitive_reduction_total` shows the
fuel chosen in `transitive_reduction` always suffices, matching the fact that
the Python recursion terminates).

Body of a call `visit(n)` (lines 252-277):
* `permanent_mark[node]` set: return (line 253);
* `temp_mark[node]` set: cycle detected, return (line 257);
* otherwise set the temporary mark, visit every child of the live includes
  list (lines 261-263), run the reduction step (lines 265-270), cache the
  reachable set as the reduced children plus their cached sets (lines
  272-274), clear the temporary mark and set the permanent one (lines
  276-277).  During the child loop only the children's own `includes` lists
  can change (a recursive `visit(node)` returns at the temporary-mark check),
  so reading the includes list once is faithful. -/
def visitAux : Nat → RState → Nat ⊕ List Nat → Option RState
  | 0, _, _ => none
  | _ + 1, s, Sum.inr [] => some s
  | fuel + 1, s, Sum.inr (c :: cs) =>
    match visitAux fuel s (Sum.inl c) with
    | none => none
    | some s' => visitAux fuel s' (Sum.inr cs)
  | fuel + 1, s, Sum.inl n =>
    if s.getPerm n then some s
    else if s.getTemp n then some s
    else
      let s1 := s.setTemp n true
      match visitAux fuel s1 (Sum.inr (s1.getAdj n)) with
      | none => none
      | some s2 =>
        let red := reduceStep (fun i => s2.getReach i) (s2.getAdj n)
        let s3 := s2.setAdjAt n red
        let s4 := s3.setReachAt n (red.foldl (fun acc c => (acc ++ [c]) ++ s3.getReach c) [])
        some ((s4.setTemp n false).setPerm n true)

/-- Initial state of `Project.transitive_reduction` (lines 238-250): every
node unmarked, every cached reachable set empty. -/
def initRState (adj : List (List Nat)) : RState :=
  ⟨adj, List.replicate adj.length false, List.replicate adj.length false,
    List.replicate adj.length []⟩

/-- Fuel sufficient for the whole traversal: one unit for every node plus one
for every entry of every includes list, plus slack (proved sufficient in
`visitAux_total`). -/
def fuelFor (adj : List (List Nat)) : Nat :=
  (∑ i ∈ Finset.range adj.length, (1 + (adj.getD i []).length)) + adj.length + 2

/-- Embedding of `Project.transitive_reduction` (lines 237-283): visit every
node in list order and return the reduced `includes` lists.  A `none` result
would mean fuel exhaustion, which `transitive_reduction_total` rules out. -/
def transitive_reduction (adj : List (List Nat)) : Option (List (List Nat)) :=
  match visitAux (fuelFor adj) (initRState adj) (Sum.inr (List.range adj.length)) with
  | some s => some s.adj
  | none => none

/-- Reachability in at most `f` steps along `includes` edges:
`reachB adj f a b` holds when some child `c` of `a` is `b` or reaches `b`
in fewer steps.  A node is not considered to reach itself unless the graph
has a cycle through it, matching the `reachable_nodes` sets of the code
(which never contain the node itself unless a cycle puts it there). -/
def reachB (adj : List (List Nat)) : Nat → Nat → Nat → Bool
  | 0, _, _ => false
  | f + 1, a, b => (adj.getD a []).any (fun c => c == b || reachB adj f c b)

/-- Transitive reachability: `Reaches adj a b` holds when `b` is reachable
from `a` via the `includes` lists `adj` in some positive number of steps. -/
def Reaches (adj : List (List Nat)) (a b : Nat) : Prop :=
  ∃ f, reachB adj f a b = true

/-- Weight of one node for the termination measure of the traversal: an
unvisited, unmarked node still costs one call plus one loop step per child;
a marked node costs nothing. -/
def nodeWeight (s : RState) (i : Nat) : Nat :=
  if s.getTemp i || s.getPerm i then 0 else 1 + (s.getAdj i).length

/-- Termination measure of the traversal: total weight of all unmarked
nodes. -/
def weight (s : RState) : Nat :=
  ∑ i ∈ Finset.range s.adj.length, nodeWeight s i

/-- Well-formedness of the mark tables: in the code the three dictionaries
are built over exactly the graph's nodes (lines 242-250). -/
def RLen (s : RState) : Prop :=
  s.temp.length = s.adj.length ∧ s.perm.length = s.adj.length

/-- Fuel cost of one task on top of the weight of the state. -/
def taskCost : Nat ⊕ List Nat → Nat
  | Sum.inl _ => 1
  | Sum.inr cs => cs.length + 1

/-! ### Component partitioning (lines 71-89 and 285-333) -/

/-- Mutable state of `Project.component_partitioning`: the live
`source_files` and `header_files` lists, each node's `component`
back-reference (`none` = no component, `some k` = member of component `k`),
and the `components` list.  A `Component` (lines 71-76) is created from
exactly one source/referencing file and one header/referenced file and never
gains members, so it is modelled as the pair of its two member ids, its
identity being its position in `comps`. -/
structure CState where
  source_files : List Nat
  header_files : List Nat
  comp : List (Option Nat)
  comps : List (Nat × Nat)
deriving Repr, DecidableEq

/-- The pairing guard of lines 292 and 317: same base name
(`os.path.splitext(os.path.basename(path))[0]`), different extension.
The excluded path-string layer is modelled by giving each node its
precomputed `(file_root, file_ext)` pair in `names`. -/
def sameBaseName (names : List (String × String)) (a b : Nat) : Bool :=
  ((names.getD a ("", "")).1 == (names.getD b ("", "")).1) &&
  ((names.getD a ("", "")).2 != (names.getD b ("", "")).2)

/-- One iteration of the inner loop of the first partitioning pass
(lines 289-309), for source `s` and header `h` from its includes list.
The three branches where at least one of the two nodes already has a
component only `pass` (lines 293-303); only when neither has one is a
`Component` created, registered, and are both nodes removed from the live
lists (lines 305-309). -/
def pairSH (names : List (String × String)) (st : CState) (s h : Nat) : CState :=
  if sameBaseName names s h then
    match st.comp.getD s none, st.comp.getD h none with
    | some _, some _ => st
    | some _, none => st
    | none, some _ => st
    | none, none =>
      { source_files := st.source_files.erase s
        header_files := st.header_files.erase h
        comp := (st.comp.set s (some st.comps.length)).set h (some st.comps.length)
        comps := st.comps ++ [(s, h)] }
  else st

/-- One iteration of the inner loop of the second partitioning pass
(lines 311-333), for header `h1` and header `h2` from its includes list;
same branch structure as `pairSH`, with both nodes removed from
`header_files` on creation (lines 329-333). -/
def pairHH (names : List (String × String)) (st : CState) (h1 h2 : Nat) : CState :=
  if sameBaseName names h1 h2 then
    match st.comp.getD h1 none, st.comp.getD h2 none with
    | some _, some _ => st
    | some _, none => st
    | none, some _ => st
    | none, none =>
      { source_files := st.source_files
        header_files := (st.header_files.erase h1).erase h2
        comp := (st.comp.set h1 (some st.comps.length)).set h2 (some st.comps.length)
        comps := st.comps ++ [(h1, h2)] }
  else st

/-- Embedding of `Project.component_partitioning` (lines 285-333).  Both
passes iterate over a `.copy()` of the respective live list (lines 286, 311)
-- hence the fold runs over the list as it stands when the pass starts --
and over a `.copy()` of each node's includes list, which partitioning never
mutates, so `adj` is passed unchanged. -/
def component_partitioning (adj : List (List Nat)) (names : List (String × String))
    (st : CState) : CState :=
  let st1 := st.source_files.foldl
    (fun acc s => (adj.getD s []).foldl (fun acc2 h => pairSH names acc2 s h) acc) st
  st1.header_files.foldl
    (fun acc h1 => (adj.getD h1 []).foldl (fun acc2 h2 => pairHH names acc2 h1 h2) acc) st1

/-- State of the partitioner on entry (from `Project.__init__` and the
builder): no node has a component, the components list is empty. -/
def initCState (n : Nat) (sources headers : List Nat) : CState :=
  ⟨sources, headers, List.replicate n none, []⟩

/-- Number of components whose member pair contains node `i`. -/
def componentsContaining (st : CState) (i : Nat) : Nat :=
  (st.comps.filter (fun p => p.1 == i || p.2 == i)).length

/-- The reduction-then-partitioning pipeline of `main` (lines 363-364). -/
def full_analysis (adj : List (List Nat)) (names : List (String × String))
    (sources headers : List Nat) : Option (List (List Nat) × CState) :=
  match transitive_reduction adj with
  | none => none
  | some adj2 =>
    some (adj2, component_partitioning adj2 names (initCState adj2.length sources headers))

/-! ### Graph building (lines 165-235) -/

/-- A dependency-graph node as built by the scanner and the preprocessor: a
`HeaderFile` (lines 11-18) or `SourceFile` (lines 41-48).  `file_path = none`
marks a missing (unresolved) node, as created at lines 191 and 226; the
`includes` list holds ids of child nodes.  The `component` attribute is not
set in this phase and lives in `CState`. -/
structure PNode where
  include_path : String
  file_path : Option String
  includes : List Nat
deriving Repr, DecidableEq, Inhabited

/-- Mutable state of the two preprocessing passes: the node arena (ids are
positions; Python object identity becomes id equality), the live
`header_files` list, and the `header_files_lookup` table mapping path
tokens to nodes. -/
structure BState where
  nodes : List PNode
  header_files : List Nat
  lookup : List (String × Nat)
deriving Repr, DecidableEq

/-- Dictionary lookup `self.header_files_lookup[tok]`; the association list
has unique keys because an entry is only added when the key is absent. -/
def lookupFind (l : List (String × Nat)) (t : String) : Option Nat :=
  match l.find? (fun p => p.1 == t) with
  | some p => some p.2
  | none => none

/-- Append child `c` to node `i`'s includes list (lines 188, 192, 223,
227). -/
def addInclude (st : BState) (i c : Nat) : BState :=
  let nd := st.nodes.getD i default
  { st with nodes := st.nodes.set i { nd with includes := nd.includes ++ [c] } }

/-- Create a missing header node for an unresolved token and register it
(lines 191-194 / 226-229): `HeaderFile(include_path)` with no `file_path`,
appended to `self.header_files` and entered into the lookup table. -/
def newMissing (st : BState) (tok : String) : BState :=
  { nodes := st.nodes ++ [⟨tok, none, []⟩]
    header_files := st.header_files ++ [st.nodes.length]
    lookup := st.lookup ++ [(tok, st.nodes.length)] }

/-- Processing of one include token of a header file (lines 184-194): a
token found in the lookup table is appended to the includes list unless it
resolves to the header itself (line 187); an unknown token creates a missing
node. -/
def hdrToken (self : Nat) (st : BState) (tok : String) : BState :=
  match lookupFind st.lookup tok with
  | some found => if found = self then st else addInclude st self found
  | none => addInclude (newMissing st tok) self st.nodes.length

/-- Processing of one include token of a source file (lines 221-229): same
as for headers but without the self test (line 223 appends
unconditionally). -/
def srcToken (self : Nat) (st : BState) (tok : String) : BState :=
  match lookupFind st.lookup tok with
  | some found => addInclude st self found
  | none => addInclude (newMissing st tok) self st.nodes.length

/-- Processing of one header file (lines 169-200): the external oracle
(`g++ -MM -MG`) returns `none` for a nonzero exit code -- the code prints
`Compile error` and moves on (lines 199-200) -- or the whitespace-split
token list of its stdout.  An empty token list only prints (lines 196-197);
otherwise the first two entries (`target.o:` and the file itself) are
skipped (line 184) and each remaining token is processed. -/
def processHeader (oracle : Nat → Option (List String)) (st : BState) (i : Nat) : BState :=
  match oracle i with
  | none => st
  | some toks => if toks.isEmpty then st else (toks.drop 2).foldl (hdrToken i) st

/-- Processing of one source file (lines 206-235), analogous to
`processHeader`. -/
def processSource (oracle : Nat → Option (List String)) (st : BState) (i : Nat) : BState :=
  match oracle i with
  | none => st
  | some toks => if toks.isEmpty then st else (toks.drop 2).foldl (srcToken i) st

/-- Folding a worklist of node ids through `processHeader`. -/
def preprocessHeaderList (oracle : Nat → Option (List String)) (ids : List Nat)
    (st : BState) : BState :=
  ids.foldl (processHeader oracle) st

/-- Embedding of `Project.preprocess_header_files` (lines 165-200): the loop
runs over `self.header_files.copy()` (line 169), so missing nodes appended
during the loop are not themselves expanded. -/
def preprocess_header_files (oracle : Nat → Option (List String)) (st : BState) : BState :=
  preprocessHeaderList oracle st.header_files st

/-- Folding a worklist of source ids through `processSource`. -/
def preprocessSourceList (oracle : Nat → Option (List String)) (ids : List Nat)
    (st : BState) : BState :=
  ids.foldl (processSource oracle) st

/-- Embedding of `Project.preprocess_source_files` (lines 202-235): the
source list is never modified by preprocessing, so it is a plain
parameter. -/
def preprocess_source_files (oracle : Nat → Option (List String)) (sources : List Nat)
    (st : BState) : BState :=
  preprocessSourceList oracle sources st

/-- Consistency of component membership: whenever the components list holds a
pair at position `k`, both members carry the back-reference `some k` (the
mutual-membership invariant of `Component.__init__`, lines 72-76). -/
def compInv (comp : List (Option Nat)) (comps : List (Nat × Nat)) : Prop :=
  ∀ k p, comps[k]? = some p →
    comp.getD p.1 none = some k ∧ comp.getD p.2 none = some k

/-- Every missing node is registered in the lookup table under its token
(lines 191-194 / 226-229 always register a freshly created missing node). -/
def MissingReg (st : BState) : Prop :=
  ∀ i, i < st.nodes.length → (st.nodes.getD i default).file_path = none →
    lookupFind st.lookup ((st.nodes.getD i default).include_path) = some i

/-- No node's includes list contains the node itself. -/
def NoSelf (st : BState) : Prop :=
  ∀ i, i ∉ (st.nodes.getD i default).includes

/-! ### Generic list helpers -/

theorem getD_set_general {α : Type} (l : List α) (i j : Nat) (a d : α) :
    (l.set i a).getD j d = if i = j ∧ i < l.length then a else l.getD j d := by
  induction l generalizing i j with
  | nil => simp [List.getD]
  | cons x t ih =>
    cases i with
    | zero =>
      cases j with
      | zero => simp [List.getD]
      | succ j => simp [List.getD]
    | succ i =>
      cases j with
      | zero => simp [List.getD]
      | succ j =>
        simp only [List.set, List.getD_cons_succ, List.length_cons, ih]
        by_cases h : i = j ∧ i < t.length
        · rw [if_pos h, if_pos ⟨by omega, by omega⟩]
        · rw [if_neg h, if_neg (by omega)]

theorem set_self_of_getD {α : Type} (l : List α) (n : Nat) (a : α)
    (h : l.getD n a = a) : l.set n a = l := by
  induction l generalizing n with
  | nil => simp
  | cons x t ih =>
    cases n with
    | zero => rw [List.getD_cons_zero] at h; simp [h]
    | succ n => rw [List.getD_cons_succ] at h; simp [ih n h]

theorem getD_replicate_general {α : Type} (n i : Nat) (a d : α) :
    (List.replicate n a).getD i d = if i < n then a else d := by
  induction n generalizing i with
  | zero => simp [List.getD]
  | succ n ih =>
    cases i with
    | zero => simp [List.replicate, List.getD]
    | succ i =>
      simp only [List.replicate_succ, List.getD_cons_succ, ih, Nat.add_lt_add_iff_right]

/-! ### Properties of the reduction step (lines 265-270) -/

theorem foldl_erase_sublist (p : Nat → Bool) :
    ∀ (l acc : List Nat),
      (l.foldl (fun a c => if p c then a.erase c else a) acc).Sublist acc := by
  intro l
  induction l with
  | nil => intro acc; exact List.Sublist.refl acc
  | cons c t ih =>
    intro acc
    simp only [List.foldl_cons]
    refine List.Sublist.trans (ih _) ?_
    by_cases h : p c
    · simp [h, List.erase_sublist]
    · simp [h]

theorem reduceStep_sublist (reach : Nat → List Nat) (nodes : List Nat) :
    (reduceStep reach nodes).Sublist nodes :=
  foldl_erase_sublist _ nodes nodes

theorem reduceStep_subset (reach : Nat → List Nat) (nodes : List Nat) :
    ∀ x ∈ reduceStep reach nodes, x ∈ nodes :=
  fun _ hx => (reduceStep_sublist reach nodes).subset hx

theorem reduceStep_length_le (reach : Nat → List Nat) (nodes : List Nat) :
    (reduceStep reach nodes).length ≤ nodes.length :=
  (reduceStep_sublist reach nodes).length_le

theorem foldl_erase_eq_diff (p : Nat → Bool) :
    ∀ (l acc : List Nat),
      l.foldl (fun a c => if p c then a.erase c else a) acc = acc.diff (l.filter p) := by
  intro l
  induction l with
  | nil => intro acc; simp
  | cons c t ih =>
    intro acc
    cases hpc : p c with
    | true => simp [List.foldl_cons, hpc, ih, List.filter_cons, List.diff_cons]
    | false => simp [List.foldl_cons, hpc, ih, List.filter_cons]

theorem diff_self_filter (p : Nat → Bool) :
    ∀ l : List Nat, l.diff (l.filter p) = l.filter (fun x => !p x) := by
  intro l
  induction l with
  | nil => simp
  | cons c t ih =>
    cases h : p c with
    | true =>
      rw [show List.filter p (c :: t) = c :: List.filter p t by simp [List.filter_cons, h],
        List.diff_cons, List.erase_cons_head, ih,
        show List.filter (fun x => !p x) (c :: t) = List.filter (fun x => !p x) t by
          simp [List.filter_cons, h]]
    | false =>
      rw [show List.filter p (c :: t) = List.filter p t by simp [List.filter_cons, h],
        List.cons_diff_of_not_mem
          (fun hc => (by simp [h] : p c ≠ true) (List.of_mem_filter hc)), ih,
        show List.filter (fun x => !p x) (c :: t) = c :: List.filter (fun x => !p x) t by
          simp [List.filter_cons, h]]

/-- A child survives the reduction step iff it was a child and no child
(itself included) has it in its cached reachable set. -/
theorem mem_reduceStep (reach : Nat → List Nat) (nodes : List Nat) (c : Nat) :
    c ∈ reduceStep reach nodes ↔ c ∈ nodes ∧ ∀ c2 ∈ nodes, c ∉ reach c2 := by
  unfold reduceStep
  rw [foldl_erase_eq_diff, diff_self_filter, List.mem_filter]
  simp

/-! ### Postconditions of the traversal -/

/-- Whatever `visit` does (for any fuel), it restores all temporary marks,
only adds permanent marks, only removes `includes` entries, and keeps the
lengths of the mark/adjacency tables. -/
theorem visitAux_post :
    ∀ (fuel : Nat) (s : RState) (t : Nat ⊕ List Nat) (s' : RState),
      visitAux fuel s t = some s' →
      s'.temp = s.temp ∧
      (∀ i, s.getPerm i = true → s'.getPerm i = true) ∧
      (∀ i x, x ∈ s'.getAdj i → x ∈ s.getAdj i) ∧
      (∀ i, (s'.getAdj i).length ≤ (s.getAdj i).length) ∧
      s'.adj.length = s.adj.length ∧ s'.temp.length = s.temp.length ∧
      s'.perm.length = s.perm.length := by
  intro fuel
  induction fuel with
  | zero => intro s t s' h; simp [visitAux] at h
  | succ fuel ih =>
    intro s t s' h
    match t with
    | Sum.inr [] =>
      simp only [visitAux, Option.some.injEq] at h
      subst h
      exact ⟨rfl, fun _ hp => hp, fun _ _ hx => hx, fun _ => le_refl _, rfl, rfl, rfl⟩
    | Sum.inr (c :: cs) =>
      simp only [visitAux] at h
      cases hc : visitAux fuel s (Sum.inl c) with
      | none => rw [hc] at h; simp at h
      | some smid =>
        rw [hc] at h; simp only at h
        obtain ⟨t1, p1, a1, l1, la1, lt1, lp1⟩ := ih s (Sum.inl c) smid hc
        obtain ⟨t2, p2, a2, l2, la2, lt2, lp2⟩ := ih smid (Sum.inr cs) s' h
        exact ⟨t2.trans t1, fun i hp => p2 i (p1 i hp), fun i x hx => a1 i x (a2 i x hx),
          fun i => (l2 i).trans (l1 i), la2.trans la1, lt2.trans lt1, lp2.trans lp1⟩
    | Sum.inl n =>
      simp only [visitAux] at h
      cases hperm : s.getPerm n with
      | true =>
        rw [hperm] at h; simp only [if_true] at h
        cases h
        exact ⟨rfl, fun _ hp => hp, fun _ _ hx => hx, fun _ => le_refl _, rfl, rfl, rfl⟩
      | false =>
        rw [hperm] at h; simp only [Bool.false_eq_true, if_false] at h
        cases htemp : s.getTemp n with
        | true =>
          rw [htemp] at h; simp only [if_true] at h
          cases h
          exact ⟨rfl, fun _ hp => hp, fun _ _ hx => hx, fun _ => le_refl _, rfl, rfl, rfl⟩
        | false =>
          rw [htemp] at h; simp only [Bool.false_eq_true, if_false] at h
          cases hrec : visitAux fuel (s.setTemp n true) (Sum.inr ((s.setTemp n true).getAdj n))
              with
          | none => rw [hrec] at h; simp at h
          | some s2 =>
            rw [hrec] at h
            simp only [Option.some.injEq] at h
            obtain ⟨t1, p1, a1, l1, la1, lt1, lp1⟩ :=
              ih (s.setTemp n true) (Sum.inr ((s.setTemp n true).getAdj n)) s2 hrec
            subst h
            have hs1adj : ∀ i, (s.setTemp n true).getAdj i = s.getAdj i := fun i => rfl
            have hs1perm : ∀ i, (s.setTemp n true).getPerm i = s.getPerm i := fun i => rfl
            refine ⟨?_, ?_, ?_, ?_, ?_, ?_, ?_⟩
            · show ((s2.setAdjAt n _).setReachAt n _).temp.set n false = s.temp
              show s2.temp.set n false = s.temp
              rw [t1]
              show (s.temp.set n true).set n false = s.temp
              rw [List.set_set]
              exact set_self_of_getD _ _ _ htemp
            · intro i hp
              show (s2.perm.set n true).getD i false = true
              rw [getD_set_general]
              have h2 : s2.getPerm i = true := p1 i (by rw [hs1perm]; exact hp)
              by_cases hcase : n = i ∧ n < s2.perm.length
              · rw [if_pos hcase]
              · rw [if_neg hcase]; exact h2
            · intro i x hx
              have hx' : x ∈ (s2.adj.set n (reduceStep (fun j => s2.getReach j)
                  (s2.getAdj n))).getD i [] := hx
              rw [getD_set_general] at hx'
              by_cases hcase : n = i ∧ n < s2.adj.length
              · rw [if_pos hcase] at hx'
                have := reduceStep_subset _ _ x hx'
                rw [← hcase.1]
                exact a1 n x this
              · rw [if_neg hcase] at hx'
                exact a1 i x hx'
            · intro i
              show ((s2.adj.set n _).getD i []).length ≤ _
              rw [getD_set_general]
              by_cases hcase : n = i ∧ n < s2.adj.length
              · rw [if_pos hcase]
                refine (reduceStep_length_le _ _).trans ?_
                rw [← hcase.1]
                exact l1 n
              · rw [if_neg hcase]
                exact l1 i
            · show (s2.adj.set n _).length = s.adj.length
              rw [List.length_set]; exact la1
            · show ((s2.temp.set n false)).length = s.temp.length
              rw [List.length_set]
              exact lt1.trans (by simp [RState.setTemp])
            · show (s2.perm.set n true).length = s.perm.length
              rw [List.length_set]; exact lp1


/-- Marked nodes stay marked and includes lists only shrink, so the weight of
a state never increases across a traversal step. -/
theorem nodeWeight_mono (s s2 : RState) (htemp : s2.temp = s.temp)
    (hperm : ∀ i, s.getPerm i = true → s2.getPerm i = true)
    (hlen : ∀ i, (s2.getAdj i).length ≤ (s.getAdj i).length) (i : Nat) :
    nodeWeight s2 i ≤ nodeWeight s i := by
  unfold nodeWeight
  have htempi : s2.getTemp i = s.getTemp i := by
    show s2.temp.getD i false = s.temp.getD i false
    rw [htemp]
  cases hm : (s.getTemp i || s.getPerm i) with
  | true =>
    have hm2 : (s2.getTemp i || s2.getPerm i) = true := by
      rcases Bool.or_eq_true_iff.mp hm with h | h
      · rw [htempi, h]; rfl
      · rw [hperm i h, Bool.or_true]
    rw [hm2]
    simp
  | false =>
    cases hm2 : (s2.getTemp i || s2.getPerm i) with
    | true => rw [if_pos rfl]; omega
    | false =>
      rw [if_neg (by simp), if_neg (by simp)]
      have := hlen i
      omega

theorem weight_mono (s s2 : RState) (htemp : s2.temp = s.temp)
    (hperm : ∀ i, s.getPerm i = true → s2.getPerm i = true)
    (hlen : ∀ i, (s2.getAdj i).length ≤ (s.getAdj i).length)
    (hadj : s2.adj.length = s.adj.length) :
    weight s2 ≤ weight s := by
  unfold weight
  rw [hadj]
  exact Finset.sum_le_sum fun i _ => nodeWeight_mono s s2 htemp hperm hlen i

/-- Setting the temporary mark on an unmarked in-range node removes exactly
that node's contribution from the weight. -/
theorem weight_setTemp (s : RState) (n : Nat) (hn : n < s.adj.length)
    (hlt : s.temp.length = s.adj.length)
    (ht : s.getTemp n = false) (hp : s.getPerm n = false) :
    weight (s.setTemp n true) + (1 + (s.getAdj n).length) = weight s := by
  unfold weight
  have hadj : (s.setTemp n true).adj = s.adj := rfl
  rw [hadj]
  have hmem : n ∈ Finset.range s.adj.length := Finset.mem_range.mpr hn
  rw [← Finset.sum_erase_add _ (nodeWeight (s.setTemp n true)) hmem,
    ← Finset.sum_erase_add _ (nodeWeight s) hmem]
  have hcongr : ∀ i ∈ (Finset.range s.adj.length).erase n,
      nodeWeight (s.setTemp n true) i = nodeWeight s i := by
    intro i hi
    have hne : i ≠ n := (Finset.mem_erase.mp hi).1
    unfold nodeWeight
    have h1 : (s.setTemp n true).getTemp i = s.getTemp i := by
      show (s.temp.set n true).getD i false = s.temp.getD i false
      rw [getD_set_general]
      rw [if_neg (by omega)]
    rw [h1]
    rfl
  have hsum : ∑ x ∈ (Finset.range s.adj.length).erase n,
      nodeWeight (s.setTemp n true) x =
      ∑ x ∈ (Finset.range s.adj.length).erase n, nodeWeight s x :=
    Finset.sum_congr rfl hcongr
  rw [hsum]
  have hzero : nodeWeight (s.setTemp n true) n = 0 := by
    unfold nodeWeight
    have h1 : (s.setTemp n true).getTemp n = true := by
      show (s.temp.set n true).getD n false = true
      rw [getD_set_general, if_pos ⟨rfl, by omega⟩]
    rw [h1, Bool.true_or, if_pos rfl]
  have hval : nodeWeight s n = 1 + (s.getAdj n).length := by
    unfold nodeWeight
    rw [ht, hp, if_neg (by simp)]
  omega

/-- The fuel chosen in `transitive_reduction` suffices: with fuel exceeding
the weight of the state plus the cost of the pending task, `visit` always
returns (the Python recursion terminates). -/
theorem visitAux_total :
    ∀ (fuel : Nat) (s : RState) (t : Nat ⊕ List Nat), RLen s →
      weight s + taskCost t < fuel → (visitAux fuel s t).isSome := by
  intro fuel
  induction fuel with
  | zero => intro s t _ hf; omega
  | succ fuel ih =>
    intro s t hlen hf
    match t with
    | Sum.inr [] => simp [visitAux]
    | Sum.inr (c :: cs) =>
      have hf1 : weight s + taskCost (Sum.inl c) < fuel := by
        simp [taskCost] at hf ⊢; omega
      have hmid := ih s (Sum.inl c) hlen hf1
      rw [Option.isSome_iff_exists] at hmid
      obtain ⟨smid, hmid⟩ := hmid
      obtain ⟨t1, p1, a1, l1, la1, lt1, lp1⟩ := visitAux_post fuel s (Sum.inl c) smid hmid
      have hlen2 : RLen smid := ⟨lt1.trans (la1 ▸ hlen.1), lp1.trans (la1 ▸ hlen.2)⟩
      have hw : weight smid ≤ weight s := weight_mono s smid t1 p1 l1 la1
      have hrest := ih smid (Sum.inr cs) hlen2
        (by simp [taskCost] at hf ⊢; omega)
      simp only [visitAux, hmid]
      exact hrest
    | Sum.inl n =>
      cases hperm : s.getPerm n with
      | true => simp [visitAux, hperm]
      | false =>
        cases htemp : s.getTemp n with
        | true => simp [visitAux, hperm, htemp]
        | false =>
          have hs1len : RLen (s.setTemp n true) :=
            ⟨by show (s.temp.set n true).length = s.adj.length; rw [List.length_set]; exact hlen.1,
             hlen.2⟩
          have hchildren : (s.setTemp n true).getAdj n = s.getAdj n := rfl
          by_cases hn : n < s.adj.length
          · have hw : weight (s.setTemp n true) + (1 + (s.getAdj n).length) = weight s :=
              weight_setTemp s n hn hlen.1 htemp hperm
            have hf2 : weight (s.setTemp n true) + taskCost (Sum.inr ((s.setTemp n true).getAdj n)) < fuel := by
              rw [hchildren]
              simp only [taskCost]
              simp only [taskCost] at hf
              omega
            have hrec := ih (s.setTemp n true) (Sum.inr ((s.setTemp n true).getAdj n)) hs1len hf2
            rw [Option.isSome_iff_exists] at hrec
            obtain ⟨s2, h2⟩ := hrec
            simp only [visitAux, hperm, htemp, Bool.false_eq_true, if_false, h2]
            rfl
          · have hch : (s.setTemp n true).getAdj n = [] := by
              show s.adj.getD n [] = []
              exact List.getD_eq_default _ _ (by omega)
            have hfuel1 : 1 ≤ fuel := by simp [taskCost] at hf; omega
            obtain ⟨f2, rfl⟩ : ∃ f2, fuel = f2 + 1 := ⟨fuel - 1, by omega⟩
            have h2 : visitAux (f2 + 1) (s.setTemp n true)
                (Sum.inr ((s.setTemp n true).getAdj n)) = some (s.setTemp n true) := by
              rw [hch]
              simp [visitAux]
            simp only [visitAux, hperm, htemp, Bool.false_eq_true, if_false, h2]
            rfl

/-- The reducer terminates on every finite graph: the pipeline entry point
never runs out of fuel. -/
theorem transitive_reduction_total (adj : List (List Nat)) :
    ∃ adj2, transitive_reduction adj = some adj2 := by
  have hs0 : RLen (initRState adj) := by
    constructor <;> simp [initRState]
  have hw : weight (initRState adj) =
      ∑ i ∈ Finset.range adj.length, (1 + (adj.getD i []).length) := by
    unfold weight
    refine Finset.sum_congr rfl ?_
    intro i hi
    have hi2 := Finset.mem_range.mp hi
    unfold nodeWeight
    have h1 : (initRState adj).getTemp i = false := by
      show (List.replicate adj.length false).getD i false = false
      rw [getD_replicate_general, if_pos hi2]
    have h2 : (initRState adj).getPerm i = false := by
      show (List.replicate adj.length false).getD i false = false
      rw [getD_replicate_general, if_pos hi2]
    rw [h1, h2, if_neg (by simp)]
    rfl
  have htot := visitAux_total (fuelFor adj) (initRState adj)
    (Sum.inr (List.range adj.length)) hs0 ?_
  · rw [Option.isSome_iff_exists] at htot
    obtain ⟨s2, h2⟩ := htot
    exact ⟨s2.adj, by unfold transitive_reduction; rw [h2]⟩
  · rw [hw]
    simp only [taskCost, List.length_range, fuelFor]
    omega


/-- The reducer only removes edges: every includes entry of the output was an
includes entry of the input. -/
theorem transitive_reduction_subset (adj adj2 : List (List Nat))
    (h : transitive_reduction adj = some adj2) :
    ∀ i x, x ∈ adj2.getD i [] → x ∈ adj.getD i [] := by
  unfold transitive_reduction at h
  cases hv : visitAux (fuelFor adj) (initRState adj) (Sum.inr (List.range adj.length)) with
  | none => rw [hv] at h; simp at h
  | some s =>
    rw [hv] at h
    simp only [Option.some.injEq] at h
    subst h
    obtain ⟨_, _, hsub, _, _, _, _⟩ :=
      visitAux_post (fuelFor adj) (initRState adj) (Sum.inr (List.range adj.length)) s hv
    intro i x hx
    exact hsub i x hx

/-- Reachability is monotone in the edge lists. -/
theorem reachB_mono (adj1 adj2 : List (List Nat))
    (hsub : ∀ i x, x ∈ adj1.getD i [] → x ∈ adj2.getD i []) :
    ∀ f a b, reachB adj1 f a b = true → reachB adj2 f a b = true := by
  intro f
  induction f with
  | zero => intro a b h; simp [reachB] at h
  | succ f ih =>
    intro a b h
    simp only [reachB, List.any_eq_true] at h ⊢
    obtain ⟨c, hc, hor⟩ := h
    refine ⟨c, hsub a c hc, ?_⟩
    rcases Bool.or_eq_true_iff.mp hor with hb | hr
    · rw [hb]; rfl
    · rw [ih c b hr, Bool.or_true]


/-! ### Component partitioning invariants -/

theorem compInv_create (comp : List (Option Nat)) (comps : List (Nat × Nat))
    (a b : Nat) (ha : a < comp.length) (hb : b < comp.length)
    (hca : comp.getD a none = none) (hcb : comp.getD b none = none)
    (hinv : compInv comp comps) :
    compInv ((comp.set a (some comps.length)).set b (some comps.length))
      (comps ++ [(a, b)]) := by
  intro k p hk
  have hlen1 : (comp.set a (some comps.length)).length = comp.length := List.length_set ..
  rcases Nat.lt_trichotomy k comps.length with hlt | heq | hgt
  · rw [List.getElem?_append, if_pos hlt] at hk
    obtain ⟨h1, h2⟩ := hinv k p hk
    have hne1a : p.1 ≠ a := fun he => by rw [he, hca] at h1; exact Option.noConfusion h1
    have hne1b : p.1 ≠ b := fun he => by rw [he, hcb] at h1; exact Option.noConfusion h1
    have hne2a : p.2 ≠ a := fun he => by rw [he, hca] at h2; exact Option.noConfusion h2
    have hne2b : p.2 ≠ b := fun he => by rw [he, hcb] at h2; exact Option.noConfusion h2
    constructor
    · rw [getD_set_general, if_neg (by tauto), getD_set_general, if_neg (by tauto)]
      exact h1
    · rw [getD_set_general, if_neg (by tauto), getD_set_general, if_neg (by tauto)]
      exact h2
  · subst heq
    rw [List.getElem?_append, if_neg (by omega), Nat.sub_self] at hk
    simp only [List.getElem?_cons_zero, Option.some.injEq] at hk
    subst hk
    constructor
    · by_cases hba : b = a
      · rw [getD_set_general, if_pos ⟨hba, by omega⟩]
      · rw [getD_set_general, if_neg (by tauto), getD_set_general, if_pos ⟨rfl, ha⟩]
    · rw [getD_set_general, if_pos ⟨rfl, by omega⟩]
  · rw [List.getElem?_append, if_neg (by omega)] at hk
    obtain ⟨m, hm⟩ : ∃ m, k - comps.length = m + 1 := ⟨k - comps.length - 1, by omega⟩
    rw [hm] at hk
    simp at hk

theorem pairSH_effects (names : List (String × String)) (st : CState) (s h : Nat)
    (hs : s < st.comp.length) (hh : h < st.comp.length)
    (hinv : compInv st.comp st.comps) :
    compInv (pairSH names st s h).comp (pairSH names st s h).comps ∧
    (pairSH names st s h).comp.length = st.comp.length ∧
    (∀ x ∈ (pairSH names st s h).header_files, x ∈ st.header_files) ∧
    (∀ x ∈ (pairSH names st s h).source_files, x ∈ st.source_files) := by
  unfold pairSH
  cases hg : sameBaseName names s h with
  | false =>
    simp only [hg, Bool.false_eq_true, if_false]
    exact ⟨hinv, by simp, fun x hx => hx, fun x hx => hx⟩
  | true =>
    simp only [hg, if_true]
    cases hcs : st.comp.getD s none with
    | some v =>
      cases hch : st.comp.getD h none with
      | some w => exact ⟨hinv, rfl, fun x hx => hx, fun x hx => hx⟩
      | none => exact ⟨hinv, rfl, fun x hx => hx, fun x hx => hx⟩
    | none =>
      cases hch : st.comp.getD h none with
      | some w => exact ⟨hinv, rfl, fun x hx => hx, fun x hx => hx⟩
      | none =>
        refine ⟨compInv_create st.comp st.comps s h hs hh hcs hch hinv, ?_, ?_, ?_⟩
        · simp [List.length_set]
        · intro x hx; exact List.erase_subset _ _ hx
        · intro x hx; exact List.erase_subset _ _ hx

theorem pairHH_effects (names : List (String × String)) (st : CState) (h1 h2 : Nat)
    (hs : h1 < st.comp.length) (hh : h2 < st.comp.length)
    (hinv : compInv st.comp st.comps) :
    compInv (pairHH names st h1 h2).comp (pairHH names st h1 h2).comps ∧
    (pairHH names st h1 h2).comp.length = st.comp.length ∧
    (∀ x ∈ (pairHH names st h1 h2).header_files, x ∈ st.header_files) ∧
    (∀ x ∈ (pairHH names st h1 h2).source_files, x ∈ st.source_files) := by
  unfold pairHH
  cases hg : sameBaseName names h1 h2 with
  | false =>
    simp only [hg, Bool.false_eq_true, if_false]
    exact ⟨hinv, by simp, fun x hx => hx, fun x hx => hx⟩
  | true =>
    simp only [hg, if_true]
    cases hcs : st.comp.getD h1 none with
    | some v =>
      cases hch : st.comp.getD h2 none with
      | some w => exact ⟨hinv, rfl, fun x hx => hx, fun x hx => hx⟩
      | none => exact ⟨hinv, rfl, fun x hx => hx, fun x hx => hx⟩
    | none =>
      cases hch : st.comp.getD h2 none with
      | some w => exact ⟨hinv, rfl, fun x hx => hx, fun x hx => hx⟩
      | none =>
        refine ⟨compInv_create st.comp st.comps h1 h2 hs hh hcs hch hinv, ?_, ?_, ?_⟩
        · simp [List.length_set]
        · intro x hx
          exact List.erase_subset _ _ (List.erase_subset _ _ hx)
        · intro x hx; exact hx


theorem foldSH_effects (names : List (String × String)) (s : Nat) :
    ∀ (hs : List Nat) (st : CState) (n : Nat), st.comp.length = n → s < n →
      (∀ h ∈ hs, h < n) → compInv st.comp st.comps →
      compInv (hs.foldl (fun acc2 h => pairSH names acc2 s h) st).comp
          (hs.foldl (fun acc2 h => pairSH names acc2 s h) st).comps ∧
        (hs.foldl (fun acc2 h => pairSH names acc2 s h) st).comp.length = n ∧
        (∀ x ∈ (hs.foldl (fun acc2 h => pairSH names acc2 s h) st).header_files,
          x ∈ st.header_files) ∧
        (∀ x ∈ (hs.foldl (fun acc2 h => pairSH names acc2 s h) st).source_files,
          x ∈ st.source_files) := by
  intro hs
  induction hs with
  | nil => intro st n h1 h2 h3 h4; exact ⟨h4, h1, fun x hx => hx, fun x hx => hx⟩
  | cons h t ih =>
    intro st n h1 h2 h3 h4
    obtain ⟨i1, i2, i3, i4⟩ := pairSH_effects names st s h (by omega)
      (by rw [h1]; exact h3 h (List.mem_cons_self h t)) h4
    obtain ⟨j1, j2, j3, j4⟩ := ih (pairSH names st s h) n (by rw [i2, h1]) h2
      (fun x hx => h3 x (List.mem_cons_of_mem h hx)) i1
    exact ⟨j1, j2, fun x hx => i3 x (j3 x hx), fun x hx => i4 x (j4 x hx)⟩

theorem phase1_effects (names : List (String × String)) (adj : List (List Nat)) :
    ∀ (ss : List Nat) (st : CState) (n : Nat), st.comp.length = n → (∀ s ∈ ss, s < n) →
      (∀ i c, c ∈ adj.getD i [] → c < n) → compInv st.comp st.comps →
      compInv (ss.foldl
          (fun acc s => (adj.getD s []).foldl (fun acc2 h => pairSH names acc2 s h) acc) st).comp
          (ss.foldl
          (fun acc s => (adj.getD s []).foldl (fun acc2 h => pairSH names acc2 s h) acc) st).comps ∧
        (ss.foldl
          (fun acc s => (adj.getD s []).foldl (fun acc2 h => pairSH names acc2 s h) acc)
          st).comp.length = n ∧
        (∀ x ∈ (ss.foldl
          (fun acc s => (adj.getD s []).foldl (fun acc2 h => pairSH names acc2 s h) acc)
          st).header_files, x ∈ st.header_files) := by
  intro ss
  induction ss with
  | nil => intro st n h1 h2 h3 h4; exact ⟨h4, h1, fun x hx => hx⟩
  | cons s t ih =>
    intro st n h1 h2 h3 h4
    obtain ⟨i1, i2, i3, i4⟩ := foldSH_effects names s (adj.getD s []) st n h1
      (h2 s (List.mem_cons_self s t)) (fun c hc => h3 s c hc) h4
    obtain ⟨j1, j2, j3⟩ := ih ((adj.getD s []).foldl (fun acc2 h => pairSH names acc2 s h) st)
      n i2 (fun x hx => h2 x (List.mem_cons_of_mem s hx)) h3 i1
    exact ⟨j1, j2, fun x hx => i3 x (j3 x hx)⟩

theorem foldHH_effects (names : List (String × String)) (h1n : Nat) :
    ∀ (hs : List Nat) (st : CState) (n : Nat), st.comp.length = n → h1n < n →
      (∀ h ∈ hs, h < n) → compInv st.comp st.comps →
      compInv (hs.foldl (fun acc2 h2 => pairHH names acc2 h1n h2) st).comp
          (hs.foldl (fun acc2 h2 => pairHH names acc2 h1n h2) st).comps ∧
        (hs.foldl (fun acc2 h2 => pairHH names acc2 h1n h2) st).comp.length = n ∧
        (∀ x ∈ (hs.foldl (fun acc2 h2 => pairHH names acc2 h1n h2) st).header_files,
          x ∈ st.header_files) := by
  intro hs
  induction hs with
  | nil => intro st n h1 h2 h3 h4; exact ⟨h4, h1, fun x hx => hx⟩
  | cons h t ih =>
    intro st n h1 h2 h3 h4
    obtain ⟨i1, i2, i3, i4⟩ := pairHH_effects names st h1n h (by omega)
      (by rw [h1]; exact h3 h (List.mem_cons_self h t)) h4
    obtain ⟨j1, j2, j3⟩ := ih (pairHH names st h1n h) n (by rw [i2, h1]) h2
      (fun x hx => h3 x (List.mem_cons_of_mem h hx)) i1
    exact ⟨j1, j2, fun x hx => i3 x (j3 x hx)⟩

theorem phase2_effects (names : List (String × String)) (adj : List (List Nat)) :
    ∀ (hhs : List Nat) (st : CState) (n : Nat), st.comp.length = n → (∀ h ∈ hhs, h < n) →
      (∀ i c, c ∈ adj.getD i [] → c < n) → compInv st.comp st.comps →
      compInv (hhs.foldl
          (fun acc h1 => (adj.getD h1 []).foldl (fun acc2 h2 => pairHH names acc2 h1 h2) acc)
          st).comp
          (hhs.foldl
          (fun acc h1 => (adj.getD h1 []).foldl (fun acc2 h2 => pairHH names acc2 h1 h2) acc)
          st).comps := by
  intro hhs
  induction hhs with
  | nil => intro st n h1 h2 h3 h4; exact h4
  | cons h t ih =>
    intro st n h1 h2 h3 h4
    obtain ⟨i1, i2, i3⟩ := foldHH_effects names h (adj.getD h []) st n h1
      (h2 h (List.mem_cons_self h t)) (fun c hc => h3 h c hc) h4
    exact ih ((adj.getD h []).foldl (fun acc2 h2 => pairHH names acc2 h h2) st)
      n i2 (fun x hx => h2 x (List.mem_cons_of_mem h hx)) h3 i1

/-- The mutual-membership invariant holds after the whole partitioning pass. -/
theorem component_partitioning_inv (adj : List (List Nat)) (names : List (String × String))
    (st : CState) (n : Nat) (hlen : st.comp.length = n)
    (hsrc : ∀ s ∈ st.source_files, s < n) (hhdr : ∀ h ∈ st.header_files, h < n)
    (hadj : ∀ i c, c ∈ adj.getD i [] → c < n) (hinv : compInv st.comp st.comps) :
    compInv (component_partitioning adj names st).comp
      (component_partitioning adj names st).comps := by
  unfold component_partitioning
  obtain ⟨i1, i2, i3⟩ := phase1_effects names adj st.source_files st n hlen hsrc hadj hinv
  exact phase2_effects names adj _ _ n i2 (fun x hx => hhdr x (i3 x hx)) hadj i1


/-! ### Graph-builder invariants -/

theorem foldl_preserve {α β : Type} (P : β → Prop) (f : β → α → β)
    (hstep : ∀ st a, P st → P (f st a)) :
    ∀ (l : List α) (st : β), P st → P (l.foldl f st) := by
  intro l
  induction l with
  | nil => intro st h; exact h
  | cons a t ih => intro st h; exact ih (f st a) (hstep st a h)

theorem getD_append_left {α : Type} (l l2 : List α) (n : Nat) (d : α)
    (h : n < l.length) : (l ++ l2).getD n d = l.getD n d := by
  rw [List.getD_eq_getElem?_getD, List.getElem?_append, if_pos h,
    ← List.getD_eq_getElem?_getD]

theorem getD_append_at {α : Type} (l : List α) (x d : α) :
    (l ++ [x]).getD l.length d = x := by
  rw [List.getD_eq_getElem?_getD, List.getElem?_append, if_neg (by omega), Nat.sub_self]
  rfl

theorem lookupFind_append_some (l l2 : List (String × Nat)) (t : String) (e : Nat)
    (h : lookupFind l t = some e) : lookupFind (l ++ l2) t = some e := by
  induction l with
  | nil => simp [lookupFind, List.find?] at h
  | cons x xs ih =>
    unfold lookupFind at h ⊢
    rw [List.cons_append, List.find?]
    rw [List.find?] at h
    cases hx : (x.1 == t) with
    | true => rw [hx] at h; simpa using h
    | false => rw [hx] at h; exact ih h

theorem lookupFind_append_new (l : List (String × Nat)) (t : String) (nid : Nat)
    (h : lookupFind l t = none) : lookupFind (l ++ [(t, nid)]) t = some nid := by
  induction l with
  | nil => simp [lookupFind, List.find?]
  | cons x xs ih =>
    unfold lookupFind at h ⊢
    rw [List.cons_append, List.find?]
    rw [List.find?] at h
    cases hx : (x.1 == t) with
    | true => rw [hx] at h; simp at h
    | false => rw [hx] at h; exact ih h

theorem addInclude_getD (st : BState) (i c j : Nat) :
    (addInclude st i c).nodes.getD j default =
      if i = j ∧ i < st.nodes.length
      then { st.nodes.getD j default with
             includes := (st.nodes.getD j default).includes ++ [c] }
      else st.nodes.getD j default := by
  unfold addInclude
  simp only
  rw [getD_set_general]
  by_cases hij : i = j ∧ i < st.nodes.length
  · rw [if_pos hij, if_pos hij, hij.1]
  · rw [if_neg hij, if_neg hij]

theorem addInclude_missingReg (st : BState) (i c : Nat) (h : MissingReg st) :
    MissingReg (addInclude st i c) := by
  intro j hj hmiss
  have hlen : (addInclude st i c).nodes.length = st.nodes.length := List.length_set ..
  rw [addInclude_getD] at hmiss ⊢
  by_cases hij : i = j ∧ i < st.nodes.length
  · rw [if_pos hij] at hmiss ⊢
    exact h j (by omega) hmiss
  · rw [if_neg hij] at hmiss ⊢
    exact h j (by omega) hmiss

theorem newMissing_missingReg (st : BState) (tok : String)
    (hfind : lookupFind st.lookup tok = none) (h : MissingReg st) :
    MissingReg (newMissing st tok) := by
  intro j hj hmiss
  have hlen : (newMissing st tok).nodes.length = st.nodes.length + 1 := by
    simp [newMissing]
  rcases Nat.lt_or_ge j st.nodes.length with hlt | hge
  · have hval : (newMissing st tok).nodes.getD j default = st.nodes.getD j default :=
      getD_append_left _ _ _ _ hlt
    rw [hval] at hmiss ⊢
    exact lookupFind_append_some _ _ _ _ (h j hlt hmiss)
  · have hj2 : j = st.nodes.length := by omega
    subst hj2
    have hval : (newMissing st tok).nodes.getD st.nodes.length default =
        ⟨tok, none, []⟩ := getD_append_at _ _ _
    rw [hval]
    exact lookupFind_append_new _ _ _ hfind

theorem hdrToken_missingReg (self : Nat) (tok : String) (st : BState)
    (h : MissingReg st) : MissingReg (hdrToken self st tok) := by
  unfold hdrToken
  cases hf : lookupFind st.lookup tok with
  | some found =>
    dsimp only
    by_cases he : found = self
    · rw [if_pos he]; exact h
    · rw [if_neg he]; exact addInclude_missingReg _ _ _ h
  | none =>
    dsimp only
    exact addInclude_missingReg _ _ _ (newMissing_missingReg _ _ hf h)

theorem srcToken_missingReg (self : Nat) (tok : String) (st : BState)
    (h : MissingReg st) : MissingReg (srcToken self st tok) := by
  unfold srcToken
  cases hf : lookupFind st.lookup tok with
  | some found => exact addInclude_missingReg _ _ _ h
  | none =>
    dsimp only
    exact addInclude_missingReg _ _ _ (newMissing_missingReg _ _ hf h)

theorem processHeader_missingReg (oracle : Nat → Option (List String)) (st : BState)
    (i : Nat) (h : MissingReg st) : MissingReg (processHeader oracle st i) := by
  unfold processHeader
  cases oracle i with
  | none => exact h
  | some toks =>
    dsimp only
    by_cases he : toks.isEmpty
    · rw [if_pos he]; exact h
    · rw [if_neg he]
      exact foldl_preserve MissingReg (hdrToken i)
        (fun st2 tok h2 => hdrToken_missingReg i tok st2 h2) _ _ h

theorem processSource_missingReg (oracle : Nat → Option (List String)) (st : BState)
    (i : Nat) (h : MissingReg st) : MissingReg (processSource oracle st i) := by
  unfold processSource
  cases oracle i with
  | none => exact h
  | some toks =>
    dsimp only
    by_cases he : toks.isEmpty
    · rw [if_pos he]; exact h
    · rw [if_neg he]
      exact foldl_preserve MissingReg (srcToken i)
        (fun st2 tok h2 => srcToken_missingReg i tok st2 h2) _ _ h

theorem preprocess_missingReg (oracle1 oracle2 : Nat → Option (List String))
    (sources : List Nat) (st : BState) (h : MissingReg st) :
    MissingReg (preprocess_source_files oracle2 sources (preprocess_header_files oracle1 st)) := by
  unfold preprocess_source_files preprocessSourceList
  refine foldl_preserve MissingReg (processSource oracle2)
    (fun st2 i h2 => processSource_missingReg oracle2 st2 i h2) _ _ ?_
  unfold preprocess_header_files preprocessHeaderList
  exact foldl_preserve MissingReg (processHeader oracle1)
    (fun st2 i h2 => processHeader_missingReg oracle1 st2 i h2) _ _ h


theorem addInclude_noSelf (st : BState) (i c : Nat) (hic : i ≠ c) (h : NoSelf st) :
    NoSelf (addInclude st i c) := by
  intro j
  rw [addInclude_getD]
  by_cases hij : i = j ∧ i < st.nodes.length
  · rw [if_pos hij]
    simp only [List.mem_append, List.mem_singleton]
    rintro (hin | hjc)
    · exact h j hin
    · exact hic (hij.1.trans hjc)
  · rw [if_neg hij]; exact h j

theorem newMissing_noSelf (st : BState) (tok : String) (h : NoSelf st) :
    NoSelf (newMissing st tok) := by
  intro j
  rcases Nat.lt_trichotomy j st.nodes.length with hlt | heq | hgt
  · rw [show (newMissing st tok).nodes.getD j default = st.nodes.getD j default from
      getD_append_left _ _ _ _ hlt]
    exact h j
  · subst heq
    rw [show (newMissing st tok).nodes.getD st.nodes.length default = ⟨tok, none, []⟩ from
      getD_append_at _ _ _]
    exact List.not_mem_nil _
  · rw [List.getD_eq_default _ _ (by simp [newMissing]; omega)]
    exact List.not_mem_nil _

theorem hdrToken_nodes_le (self : Nat) (st : BState) (tok : String) :
    st.nodes.length ≤ (hdrToken self st tok).nodes.length := by
  unfold hdrToken
  cases hf : lookupFind st.lookup tok with
  | some found =>
    dsimp only
    by_cases he : found = self
    · rw [if_pos he]
    · rw [if_neg he]
      rw [show (addInclude st self found).nodes.length = st.nodes.length from
        List.length_set ..]
  | none =>
    dsimp only
    rw [show (addInclude (newMissing st tok) self st.nodes.length).nodes.length =
      (newMissing st tok).nodes.length from List.length_set ..]
    simp [newMissing]

theorem srcToken_nodes_le (self : Nat) (st : BState) (tok : String) :
    st.nodes.length ≤ (srcToken self st tok).nodes.length := by
  unfold srcToken
  cases hf : lookupFind st.lookup tok with
  | some found =>
    dsimp only
    rw [show (addInclude st self found).nodes.length = st.nodes.length from
      List.length_set ..]
  | none =>
    dsimp only
    rw [show (addInclude (newMissing st tok) self st.nodes.length).nodes.length =
      (newMissing st tok).nodes.length from List.length_set ..]
    simp [newMissing]

theorem hdrToken_noSelf (self : Nat) (st : BState) (tok : String)
    (hself : self < st.nodes.length) (h : NoSelf st) : NoSelf (hdrToken self st tok) := by
  unfold hdrToken
  cases hf : lookupFind st.lookup tok with
  | some found =>
    dsimp only
    by_cases he : found = self
    · rw [if_pos he]; exact h
    · rw [if_neg he]
      exact addInclude_noSelf st self found (fun hx => he (hx.symm)) h
  | none =>
    dsimp only
    exact addInclude_noSelf (newMissing st tok) self st.nodes.length (by omega)
      (newMissing_noSelf st tok h)

theorem foldTokens_noSelf (self : Nat) :
    ∀ (toks : List String) (st : BState), self < st.nodes.length → NoSelf st →
      NoSelf (toks.foldl (hdrToken self) st) ∧
        st.nodes.length ≤ (toks.foldl (hdrToken self) st).nodes.length := by
  intro toks
  induction toks with
  | nil => intro st hs h; exact ⟨h, le_refl _⟩
  | cons tok t ih =>
    intro st hs h
    have hle := hdrToken_nodes_le self st tok
    obtain ⟨j1, j2⟩ := ih (hdrToken self st tok) (by omega)
      (hdrToken_noSelf self st tok hs h)
    simp only [List.foldl_cons]
    exact ⟨j1, by omega⟩

theorem processHeader_noSelf (oracle : Nat → Option (List String)) (st : BState)
    (i : Nat) (hi : i < st.nodes.length) (h : NoSelf st) :
    NoSelf (processHeader oracle st i) ∧
      st.nodes.length ≤ (processHeader oracle st i).nodes.length := by
  unfold processHeader
  cases oracle i with
  | none => exact ⟨h, le_refl _⟩
  | some toks =>
    dsimp only
    by_cases he : toks.isEmpty
    · rw [if_pos he]; exact ⟨h, le_refl _⟩
    · rw [if_neg he]
      exact foldTokens_noSelf i (toks.drop 2) st hi h

theorem preprocessHeaderList_noSelf (oracle : Nat → Option (List String)) :
    ∀ (ids : List Nat) (st : BState), (∀ x ∈ ids, x < st.nodes.length) → NoSelf st →
      NoSelf (preprocessHeaderList oracle ids st) := by
  intro ids
  induction ids with
  | nil => intro st _ h; exact h
  | cons i t ih =>
    intro st hb h
    obtain ⟨j1, j2⟩ := processHeader_noSelf oracle st i (hb i (List.mem_cons_self i t)) h
    exact ih (processHeader oracle st i)
      (fun x hx => lt_of_lt_of_le (hb x (List.mem_cons_of_mem i hx)) j2) j1

theorem processHeader_fail (oracle : Nat → Option (List String)) (st : BState) (i : Nat)
    (h : oracle i = none) : processHeader oracle st i = st := by
  unfold processHeader
  rw [h]

theorem processSource_fail (oracle : Nat → Option (List String)) (st : BState) (i : Nat)
    (h : oracle i = none) : processSource oracle st i = st := by
  unfold processSource
  rw [h]


/-! ### Claims -/

/-- C1, counterexample: reachability is NOT preserved by
`transitive_reduction` on every finite graph.  On the cyclic graph
`0 -> 1 -> 2 -> 1` the pairwise check of lines 266-270 also tests a child
against its own cached reachable set; node 1 lies in a cycle, so
`1 ∈ reachable_nodes[1]`, and the only edge out of node 0 is removed: nodes
1 and 2 are reachable from 0 before the reduction and unreachable after. -/
theorem C1_counterexample :
    transitive_reduction [[1], [2], [1]] = some [[], [2], [1]] ∧
    Reaches [[1], [2], [1]] 0 1 ∧ ¬ Reaches [[], [2], [1]] 0 1 := by
  refine ⟨by decide, ⟨1, by decide⟩, ?_⟩
  rintro ⟨f, hf⟩
  cases f with
  | zero => simp [reachB] at hf
  | succ f => simp [reachB] at hf

/-- C1, amended: the set of nodes transitively reachable from any node after
`transitive_reduction` is a subset of the set reachable before (the reducer
only removes edges); on cyclic graphs the inclusion can be strict, so the
two sets are not equal in general. -/
theorem C1_reachability_only_shrinks (adj adj2 : List (List Nat))
    (h : transitive_reduction adj = some adj2) (a b : Nat)
    (hr : Reaches adj2 a b) : Reaches adj a b := by
  obtain ⟨f, hf⟩ := hr
  exact ⟨f, reachB_mono adj2 adj (transitive_reduction_subset adj adj2 h) f a b hf⟩

/-- Witness for C1: concrete instantiation on the graph `0 -> 1 -> 2 -> 1`. -/
theorem C1_witness : Reaches [[1], [2], [1]] 1 2 :=
  C1_reachability_only_shrinks [[1], [2], [1]] [[], [2], [1]] (by decide) 1 2 ⟨1, by decide⟩

/-- C2, counterexample: after reduction of the graph `0 -> {1,2}`,
`1 -> {2,0}`, node 1 keeps the two distinct children 2 and 0, and 2 IS
reachable from 0 in the reduced graph (via `0 -> 1 -> 2`), contradicting
pairwise unreachability of surviving siblings. -/
theorem C2_counterexample :
    transitive_reduction [[1, 2], [2, 0], []] = some [[1], [2, 0], []] ∧
    (2 : Nat) ∈ [[1], [2, 0], []].getD 1 [] ∧ (0 : Nat) ∈ [[1], [2, 0], []].getD 1 [] ∧
    (2 : Nat) ≠ 0 ∧ Reaches [[1], [2, 0], []] 0 2 := by
  exact ⟨by decide, by decide, by decide, by decide, ⟨2, by decide⟩⟩

/-- C2, amended: what the reduction step of lines 265-270 guarantees is
pairwise non-membership with respect to the reachable sets cached at
reduction time: every child surviving `reduceStep` is absent from the cached
reachable set of every child of the same node (including itself).  Pairwise
unreachability in the final reduced graph fails on cyclic graphs, where the
cached sets are incomplete. -/
theorem C2_survivor_not_in_cached_reach (reach : Nat → List Nat) (nodes : List Nat)
    (c1 : Nat) (h1 : c1 ∈ reduceStep reach nodes) : ∀ c2 ∈ nodes, c1 ∉ reach c2 :=
  fun c2 hc2 => ((mem_reduceStep reach nodes c1).mp h1).2 c2 hc2

/-- Witness for C2: concrete instantiation. -/
theorem C2_witness :
    (3 : Nat) ∈ reduceStep (fun _ => []) [3] ∧ (3 : Nat) ∉ ([] : List Nat) :=
  ⟨by decide, C2_survivor_not_in_cached_reach (fun _ => []) [3] 3 (by decide) 3 (by decide)⟩

/-- C3, counterexample: `transitive_reduction` is NOT idempotent.  On the
graph `0 -> 1 -> 2 -> {0,1,2}` the first run visits node 2 while nodes 0 and
1 are in progress, so the cycle check truncates the cached reachable sets and
the redundant edge `2 -> 1` survives; a second run, whose reachable sets for
the already-reduced nodes are larger, removes it. -/
theorem C3_counterexample :
    transitive_reduction [[1], [2], [0, 1, 2]] = some [[1], [], [0, 1, 2]] ∧
    transitive_reduction [[1], [], [0, 1, 2]] ≠ some [[1], [], [0, 1, 2]] := by
  exact ⟨by decide, by decide⟩

/-- C3, amended: a second run of the reducer on its own output never adds an
edge -- each node's includes list after the second run is contained in its
includes list after the first run -- but the output need not be a fixed
point: on cyclic graphs the second run can remove further edges. -/
theorem C3_second_run_only_removes (adj adj2 adj3 : List (List Nat))
    (_h1 : transitive_reduction adj = some adj2)
    (h2 : transitive_reduction adj2 = some adj3) :
    ∀ i x, x ∈ adj3.getD i [] → x ∈ adj2.getD i [] :=
  fun i x hx => transitive_reduction_subset adj2 adj3 h2 i x hx

/-- Witness for C3: concrete instantiation on the counterexample graph. -/
theorem C3_witness : (0 : Nat) ∈ [[1], [], [0, 1, 2]].getD 2 [] :=
  C3_second_run_only_removes [[1], [2], [0, 1, 2]] [[1], [], [0, 1, 2]] [[1], [], [0, 2]]
    (by decide) (by decide) 2 0 (by decide)

/-- C4: on the two-node graph with `0 includes 1` and `1 includes 0` the
reducer terminates (the fueled traversal returns a result rather than
running out) and both direct edges survive in the respective includes
lists. -/
theorem C4_cycle_safety : transitive_reduction [[1], [0]] = some [[1], [0]] := by
  decide

/-- C5: for every finite input graph -- cycles, self-edges and missing nodes
included, since `adj`, `names`, `sources` and `headers` are arbitrary --
running `transitive_reduction` followed by `component_partitioning` always
terminates with a result: the traversal never exhausts its fuel (no
unbounded recursion) and the partitioning passes are structural folds. -/
theorem C5_pipeline_total (adj : List (List Nat)) (names : List (String × String))
    (sources headers : List Nat) :
    ∃ out, full_analysis adj names sources headers = some out := by
  obtain ⟨adj2, h2⟩ := transitive_reduction_total adj
  refine ⟨(adj2, component_partitioning adj2 names (initCState adj2.length sources headers)), ?_⟩
  unfold full_analysis
  rw [h2]

/-- C6, counterexample: a node claimed by no pairing does NOT end up in a
singleton Component -- it ends up in no Component at all.  With a single
header node and no pairing partner, the components list stays empty and the
node's component back-reference stays `none`. -/
theorem C6_counterexample :
    (component_partitioning [[]] [("a", ".h")] (initCState 1 [] [0])).comps = [] ∧
    (component_partitioning [[]] [("a", ".h")] (initCState 1 [] [0])).comp.getD 0 none = none ∧
    componentsContaining (component_partitioning [[]] [("a", ".h")] (initCState 1 [] [0])) 0 = 0 := by
  exact ⟨by decide, by decide, by decide⟩

/-- C6, amended: after `component_partitioning` every node belongs to AT MOST
one Component: two component pairs containing the same node sit at the same
position, and a node whose back-reference is `none` occurs in no component
pair.  Nodes claimed by no pairing remain outside every Component (no
singleton Components are created). -/
theorem C6_component_membership (adj : List (List Nat)) (names : List (String × String))
    (n : Nat) (sources headers : List Nat)
    (hsrc : ∀ s ∈ sources, s < n) (hhdr : ∀ h ∈ headers, h < n)
    (hadj : ∀ i c, c ∈ adj.getD i [] → c < n) :
    (∀ (i k1 k2 : Nat) (p1 p2 : Nat × Nat),
      (component_partitioning adj names (initCState n sources headers)).comps[k1]? = some p1 →
      (component_partitioning adj names (initCState n sources headers)).comps[k2]? = some p2 →
      (p1.1 = i ∨ p1.2 = i) → (p2.1 = i ∨ p2.2 = i) → k1 = k2) ∧
    (∀ i : Nat, (component_partitioning adj names (initCState n sources headers)).comp.getD i none
        = none →
      ∀ (k : Nat) (p : Nat × Nat),
        (component_partitioning adj names (initCState n sources headers)).comps[k]? = some p →
        p.1 ≠ i ∧ p.2 ≠ i) := by
  have hinv := component_partitioning_inv adj names (initCState n sources headers) n
    (by simp [initCState]) hsrc hhdr hadj (fun k p hk => by simp [initCState] at hk)
  constructor
  · intro i k1 k2 p1 p2 h1 h2 hp1 hp2
    obtain ⟨a1, a2⟩ := hinv k1 p1 h1
    obtain ⟨b1, b2⟩ := hinv k2 p2 h2
    have hc1 : (component_partitioning adj names (initCState n sources headers)).comp.getD i none
        = some k1 := by rcases hp1 with hh | hh <;> rw [← hh] <;> assumption
    have hc2 : (component_partitioning adj names (initCState n sources headers)).comp.getD i none
        = some k2 := by rcases hp2 with hh | hh <;> rw [← hh] <;> assumption
    exact Option.some.inj (hc1.symm.trans hc2)
  · intro i hnone k p hk
    obtain ⟨a1, a2⟩ := hinv k p hk
    constructor
    · intro he; rw [he] at a1; rw [a1] at hnone; exact Option.noConfusion hnone
    · intro he; rw [he] at a2; rw [a2] at hnone; exact Option.noConfusion hnone

/-- Witness for C6: concrete instantiation. -/
theorem C6_witness :
    (∀ (i k1 k2 : Nat) (p1 p2 : Nat × Nat),
      (component_partitioning [[1, 2], [], []] [("foo", ".cpp"), ("foo", ".hpp"), ("bar", ".h")]
        (initCState 3 [0] [1, 2])).comps[k1]? = some p1 →
      (component_partitioning [[1, 2], [], []] [("foo", ".cpp"), ("foo", ".hpp"), ("bar", ".h")]
        (initCState 3 [0] [1, 2])).comps[k2]? = some p2 →
      (p1.1 = i ∨ p1.2 = i) → (p2.1 = i ∨ p2.2 = i) → k1 = k2) ∧
    (∀ i : Nat, (component_partitioning [[1, 2], [], []]
        [("foo", ".cpp"), ("foo", ".hpp"), ("bar", ".h")]
        (initCState 3 [0] [1, 2])).comp.getD i none = none →
      ∀ (k : Nat) (p : Nat × Nat),
        (component_partitioning [[1, 2], [], []] [("foo", ".cpp"), ("foo", ".hpp"), ("bar", ".h")]
        (initCState 3 [0] [1, 2])).comps[k]? = some p →
        p.1 ≠ i ∧ p.2 ≠ i) :=
  C6_component_membership [[1, 2], [], []] [("foo", ".cpp"), ("foo", ".hpp"), ("bar", ".h")]
    3 [0] [1, 2] (by decide) (by decide)
    (by
      intro i c hc
      match i with
      | 0 => simp at hc; rcases hc with rfl | rfl <;> omega
      | 1 => simp at hc
      | 2 => simp at hc
      | m + 3 => rw [List.getD_eq_default _ _ (by simp)] at hc; simp at hc)

/-- C7, counterexample: merge-by-adoption does NOT happen.  Source 0
(`foo.cpp`) includes headers 1 (`foo.hpp`) and 2 (`foo.h`); the first match
creates the Component `(0, 1)`; at the second match exactly one of the two
nodes (the source) has a component, and the code's branch at lines 297-299
only passes: node 2 is left with no component instead of being added. -/
theorem C7_counterexample :
    (component_partitioning [[1, 2], [], []] [("foo", ".cpp"), ("foo", ".hpp"), ("foo", ".h")]
      (initCState 3 [0] [1, 2])).comps = [(0, 1)] ∧
    (component_partitioning [[1, 2], [], []] [("foo", ".cpp"), ("foo", ".hpp"), ("foo", ".h")]
      (initCState 3 [0] [1, 2])).comp.getD 2 none = none := by
  exact ⟨by decide, by decide⟩

/-- C7, amended: when two nodes match the pairing rule and exactly one of
them already has a Component, the partitioner makes NO change at all (the
adoption branches at lines 297-303 and 323-327 are no-ops): the state is
returned unchanged by both the source/header and the header/header pair
step. -/
theorem C7_adoption_is_noop (names : List (String × String)) (st : CState) (s h : Nat)
    (hg : sameBaseName names s h = true)
    (hx : (st.comp.getD s none).isSome ≠ (st.comp.getD h none).isSome) :
    pairSH names st s h = st ∧ pairHH names st s h = st := by
  unfold pairSH pairHH
  rw [if_pos hg, if_pos hg]
  cases hcs : st.comp.getD s none with
  | some v =>
    cases hch : st.comp.getD h none with
    | some w => rw [hcs, hch] at hx; simp at hx
    | none => exact ⟨rfl, rfl⟩
  | none =>
    cases hch : st.comp.getD h none with
    | some w => exact ⟨rfl, rfl⟩
    | none => rw [hcs, hch] at hx; simp at hx

/-- Witness for C7: concrete instantiation. -/
theorem C7_witness :
    pairSH [("foo", ".cpp"), ("foo", ".hpp")] ⟨[0], [1], [some 0, none], []⟩ 0 1 =
      ⟨[0], [1], [some 0, none], []⟩ ∧
    pairHH [("foo", ".cpp"), ("foo", ".hpp")] ⟨[0], [1], [some 0, none], []⟩ 0 1 =
      ⟨[0], [1], [some 0, none], []⟩ :=
  C7_adoption_is_noop [("foo", ".cpp"), ("foo", ".hpp")] ⟨[0], [1], [some 0, none], []⟩ 0 1
    (by decide) (by decide)

/-- C8: provided the scanned nodes all have a real file (as `scan_include_dirs`
and `scan_source_dirs` guarantee), then after both preprocessing passes every
missing (unresolved) node is registered in the lookup table under its token
(`MissingReg`), and two missing nodes with the same token are the same node:
exactly one missing node exists per unresolved token and all referencers
alias it. -/
theorem C8_missing_unique (oracle1 oracle2 : Nat → Option (List String))
    (sources : List Nat) (st0 : BState)
    (hinit : ∀ nd ∈ st0.nodes, nd.file_path.isSome) :
    MissingReg (preprocess_source_files oracle2 sources (preprocess_header_files oracle1 st0)) ∧
    (∀ i j,
      i < (preprocess_source_files oracle2 sources
        (preprocess_header_files oracle1 st0)).nodes.length →
      j < (preprocess_source_files oracle2 sources
        (preprocess_header_files oracle1 st0)).nodes.length →
      ((preprocess_source_files oracle2 sources
        (preprocess_header_files oracle1 st0)).nodes.getD i default).file_path = none →
      ((preprocess_source_files oracle2 sources
        (preprocess_header_files oracle1 st0)).nodes.getD j default).file_path = none →
      ((preprocess_source_files oracle2 sources
        (preprocess_header_files oracle1 st0)).nodes.getD i default).include_path =
        ((preprocess_source_files oracle2 sources
        (preprocess_header_files oracle1 st0)).nodes.getD j default).include_path →
      i = j) := by
  have hbase : MissingReg st0 := by
    intro i hi hmiss
    exfalso
    have hmem : st0.nodes.getD i default ∈ st0.nodes := by
      rw [List.getD_eq_getElem?_getD, List.getElem?_eq_getElem hi]
      exact List.getElem_mem hi
    have := hinit _ hmem
    rw [hmiss] at this
    simp at this
  have h1 := preprocess_missingReg oracle1 oracle2 sources st0 hbase
  refine ⟨h1, ?_⟩
  intro i j hi hj hmi hmj hpath
  have e1 := h1 i hi hmi
  have e2 := h1 j hj hmj
  rw [hpath] at e1
  exact Option.some.inj (e1.symm.trans e2)

/-- Witness for C8: a header and a source file both include the unresolved
token `m.h`; one missing node (id 2) is created, registered and shared. -/
theorem C8_witness :
    MissingReg (preprocess_source_files (fun i => if i = 1 then some ["b.o:", "b.cpp", "m.h"] else none)
      [1] (preprocess_header_files (fun i => if i = 0 then some ["a.o:", "a.h", "m.h"] else none)
        ⟨[⟨"a.h", some "a.h", []⟩, ⟨"b.cpp", some "b.cpp", []⟩], [0], [("a.h", 0)]⟩)) ∧
    (∀ i j,
      i < (preprocess_source_files (fun i => if i = 1 then some ["b.o:", "b.cpp", "m.h"] else none)
        [1] (preprocess_header_files (fun i => if i = 0 then some ["a.o:", "a.h", "m.h"] else none)
        ⟨[⟨"a.h", some "a.h", []⟩, ⟨"b.cpp", some "b.cpp", []⟩], [0], [("a.h", 0)]⟩)).nodes.length →
      j < (preprocess_source_files (fun i => if i = 1 then some ["b.o:", "b.cpp", "m.h"] else none)
        [1] (preprocess_header_files (fun i => if i = 0 then some ["a.o:", "a.h", "m.h"] else none)
        ⟨[⟨"a.h", some "a.h", []⟩, ⟨"b.cpp", some "b.cpp", []⟩], [0], [("a.h", 0)]⟩)).nodes.length →
      ((preprocess_source_files (fun i => if i = 1 then some ["b.o:", "b.cpp", "m.h"] else none)
        [1] (preprocess_header_files (fun i => if i = 0 then some ["a.o:", "a.h", "m.h"] else none)
        ⟨[⟨"a.h", some "a.h", []⟩, ⟨"b.cpp", some "b.cpp", []⟩], [0], [("a.h", 0)]⟩)).nodes.getD i
          default).file_path = none →
      ((preprocess_source_files (fun i => if i = 1 then some ["b.o:", "b.cpp", "m.h"] else none)
        [1] (preprocess_header_files (fun i => if i = 0 then some ["a.o:", "a.h", "m.h"] else none)
        ⟨[⟨"a.h", some "a.h", []⟩, ⟨"b.cpp", some "b.cpp", []⟩], [0], [("a.h", 0)]⟩)).nodes.getD j
          default).file_path = none →
      ((preprocess_source_files (fun i => if i = 1 then some ["b.o:", "b.cpp", "m.h"] else none)
        [1] (preprocess_header_files (fun i => if i = 0 then some ["a.o:", "a.h", "m.h"] else none)
        ⟨[⟨"a.h", some "a.h", []⟩, ⟨"b.cpp", some "b.cpp", []⟩], [0], [("a.h", 0)]⟩)).nodes.getD i
          default).include_path =
        ((preprocess_source_files (fun i => if i = 1 then some ["b.o:", "b.cpp", "m.h"] else none)
        [1] (preprocess_header_files (fun i => if i = 0 then some ["a.o:", "a.h", "m.h"] else none)
        ⟨[⟨"a.h", some "a.h", []⟩, ⟨"b.cpp", some "b.cpp", []⟩], [0], [("a.h", 0)]⟩)).nodes.getD j
          default).include_path →
      i = j) :=
  C8_missing_unique (fun i => if i = 0 then some ["a.o:", "a.h", "m.h"] else none)
    (fun i => if i = 1 then some ["b.o:", "b.cpp", "m.h"] else none) [1]
    ⟨[⟨"a.h", some "a.h", []⟩, ⟨"b.cpp", some "b.cpp", []⟩], [0], [("a.h", 0)]⟩ (by decide)

/-- C9, counterexample: an extraction failure is NOT recorded on the node as
a flag -- nothing about the node changes.  With the oracle failing on header
0 and succeeding on header 1, the run continues (node 1 is expanded, the
missing node 2 is created) while node 0 is bit-for-bit unchanged: no field
of the node records the failure (the code only prints at line 200). -/
theorem C9_counterexample :
    preprocess_header_files (fun i => if i = 0 then none else some ["b.o:", "b.h", "m.h"])
      ⟨[⟨"a.h", some "a.h", []⟩, ⟨"b.h", some "b.h", []⟩], [0, 1], [("a.h", 0), ("b.h", 1)]⟩ =
      ⟨[⟨"a.h", some "a.h", []⟩, ⟨"b.h", some "b.h", [2]⟩, ⟨"m.h", none, []⟩], [0, 1, 2],
        [("a.h", 0), ("b.h", 1), ("m.h", 2)]⟩ := by
  decide

/-- C9, amended: a hard oracle failure (nonzero return code) for a node
leaves the whole state unchanged at that node's step -- nothing is recorded
on the node, its subtree is not expanded -- and the surrounding loop
processes the remaining nodes exactly as if the failed node were absent; the
run is never aborted. -/
theorem C9_failure_nonfatal (oracle : Nat → Option (List String)) (st : BState)
    (i : Nat) (l1 l2 : List Nat) (h : oracle i = none) :
    processHeader oracle st i = st ∧ processSource oracle st i = st ∧
    preprocessHeaderList oracle (l1 ++ i :: l2) st = preprocessHeaderList oracle (l1 ++ l2) st ∧
    preprocessSourceList oracle (l1 ++ i :: l2) st = preprocessSourceList oracle (l1 ++ l2) st := by
  refine ⟨processHeader_fail oracle st i h, processSource_fail oracle st i h, ?_, ?_⟩
  · unfold preprocessHeaderList
    rw [List.foldl_append, List.foldl_append, List.foldl_cons,
      processHeader_fail oracle _ i h]
  · unfold preprocessSourceList
    rw [List.foldl_append, List.foldl_append, List.foldl_cons,
      processSource_fail oracle _ i h]

/-- Witness for C9: concrete instantiation. -/
theorem C9_witness :
    processHeader (fun _ => none) ⟨[⟨"a.h", some "a.h", []⟩], [0], [("a.h", 0)]⟩ 0 =
      ⟨[⟨"a.h", some "a.h", []⟩], [0], [("a.h", 0)]⟩ ∧
    processSource (fun _ => none) ⟨[⟨"a.h", some "a.h", []⟩], [0], [("a.h", 0)]⟩ 0 =
      ⟨[⟨"a.h", some "a.h", []⟩], [0], [("a.h", 0)]⟩ ∧
    preprocessHeaderList (fun _ => none) ([] ++ 0 :: [1])
        ⟨[⟨"a.h", some "a.h", []⟩], [0], [("a.h", 0)]⟩ =
      preprocessHeaderList (fun _ => none) ([] ++ [1])
        ⟨[⟨"a.h", some "a.h", []⟩], [0], [("a.h", 0)]⟩ ∧
    preprocessSourceList (fun _ => none) ([] ++ 0 :: [1])
        ⟨[⟨"a.h", some "a.h", []⟩], [0], [("a.h", 0)]⟩ =
      preprocessSourceList (fun _ => none) ([] ++ [1])
        ⟨[⟨"a.h", some "a.h", []⟩], [0], [("a.h", 0)]⟩ :=
  C9_failure_nonfatal (fun _ => none) ⟨[⟨"a.h", some "a.h", []⟩], [0], [("a.h", 0)]⟩ 0 [] [1] rfl

/-- C10: header expansion never creates a self-edge.  Starting from the
post-scan state (all includes lists empty, every entry of `header_files` a
real node), after `preprocess_header_files` no node's includes list contains
the node itself: a token resolving to the header being expanded is skipped by
the identity test of line 187, and freshly created missing nodes are distinct
from the node under expansion. -/
theorem C10_no_self_edge (oracle : Nat → Option (List String)) (st0 : BState)
    (hempty : ∀ nd ∈ st0.nodes, nd.includes = [])
    (hbound : ∀ h ∈ st0.header_files, h < st0.nodes.length) :
    ∀ i, i ∉ ((preprocess_header_files oracle st0).nodes.getD i default).includes := by
  have hbase : NoSelf st0 := by
    intro i
    rcases Nat.lt_or_ge i st0.nodes.length with hlt | hge
    · have hmem : st0.nodes.getD i default ∈ st0.nodes := by
        rw [List.getD_eq_getElem?_getD, List.getElem?_eq_getElem hlt]
        exact List.getElem_mem hlt
      rw [hempty _ hmem]
      exact List.not_mem_nil _
    · rw [List.getD_eq_default _ _ hge]
      exact List.not_mem_nil _
  exact preprocessHeaderList_noSelf oracle st0.header_files st0 hbound hbase

/-- Witness for C10: concrete instantiation (node 1 includes only the missing
node 2 after expansion, not itself). -/
theorem C10_witness :
    (1 : Nat) ∉ ((preprocess_header_files
      (fun i => if i = 0 then none else some ["b.o:", "b.h", "m.h"])
      ⟨[⟨"a.h", some "a.h", []⟩, ⟨"b.h", some "b.h", []⟩], [0, 1],
        [("a.h", 0), ("b.h", 1)]⟩).nodes.getD 1 default).includes :=
  C10_no_self_edge (fun i => if i = 0 then none else some ["b.o:", "b.h", "m.h"])
    ⟨[⟨"a.h", some "a.h", []⟩, ⟨"b.h", some "b.h", []⟩], [0, 1], [("a.h", 0), ("b.h", 1)]⟩
    (by decide) (by decide) 1

end Cppdep
